import Mathlib

/-!
# Verification of the QA-system retrieval-augmented conversation core

Shallow embedding of `src/rag.py` (a streamlit retrieval-augmented
question-answering app) together with the spec's chunking algorithm.

The chunking itself is performed by a third-party text splitter that is not
part of this repository's sources, so the `TextChunker` contract of §4.1 of
the spec is modelled from the spec's words.  Everything else
(`handle_userinput`, `get_document_text`, `add_download_button`,
`add_clear_button`, the session-state initialisation in `main`) is embedded
directly from `src/rag.py`.
-/

namespace RagSpec

/-- Error taxonomy of the spec (§7), restricted to the kinds the claims use. -/
inductive ChunkError where
  | invalidConfiguration
  deriving DecidableEq, Repr

/-- The trailing `n` characters of a list (all of it when it is shorter). -/
def takeLast (n : Nat) (l : List Char) : List Char :=
  l.drop (l.length - n)

/-- Modelled from the spec: the greedy merge loop of §4.1 TextChunker, which
is implemented by a third-party text splitter absent from `src/`.  Units are
accumulated into a running buffer until appending the next unit would exceed
`size`; the buffer is then emitted as a chunk and the next buffer retains the
trailing `overlap` characters of the emitted chunk.  A unit is always added
to a freshly seeded buffer so that an oversized unit is emitted (with its
seed) rather than truncated — loss of data is never acceptable (§4.1).  The
`fresh` flag marks a buffer that contains no unit yet. -/
def mergeAux (size overlap : Nat) : List (List Char) → List Char → Bool → List (List Char)
  | [], _, true => []
  | [], buf, false => [buf]
  | u :: us, buf, fresh =>
    if fresh || buf.length + u.length ≤ size then
      mergeAux size overlap us (buf ++ u) false
    else
      buf :: mergeAux size overlap us (takeLast overlap buf ++ u) false

/-- Modelled from the spec: splitting on the separator into atomic units,
"preserving the separator as a joinable delimiter" (§4.1).  The empty
separator yields character units (scenario A of §8 requires this). -/
def splitUnits (text separator : String) : List (List Char) :=
  if separator = "" then
    text.data.map (fun c => [c])
  else
    match (text.splitOn separator).map String.data with
    | [] => []
    | p :: ps => p :: ps.map (fun q => separator.data ++ q)

/-- Modelled from the spec: `chunk(text, separator, size, overlap)` of §4.1,
absent from `src/` (the repository delegates to a third-party splitter).
Constraints `size > 0`, `0 <= overlap < size`; violation fails with
`InvalidConfiguration` before any chunk is produced.  Empty input produces an
empty sequence. -/
def chunk (text separator : String) (size overlap : Int) : Except ChunkError (List String) :=
  if size ≤ 0 ∨ overlap < 0 ∨ size ≤ overlap then
    .error .invalidConfiguration
  else if text = "" then
    .ok []
  else
    .ok ((mergeAux size.toNat overlap.toNat (splitUnits text separator) [] true).map
      fun l => String.mk l)

/-! ## The conversational engine embedded from `src/rag.py` -/

/-- A chat message as stored in the chain's `chat_history`: a langchain
message exposing `type` (`"human"` or `"ai"`) and `content`
(`rag.py` lines 70–74 and 99–100 read exactly these two fields). -/
structure Message where
  type : String
  content : String
  deriving DecidableEq, Repr

/-- The response dictionary returned by invoking the conversation chain
(`rag.py` line 66): the only key the program reads is `chat_history`. -/
structure ChainResponse where
  chat_history : List Message

/-- The conversation chain built by `get_conversation_chain`: invoked with a
question, it either returns a response or raises a generation-service
failure (the chain wraps the retriever and LLM, both external services). -/
def Chain : Type := String → Except Unit ChainResponse

/-- The streamlit session state used by `rag.py`: `st.session_state.conversation`
and `st.session_state.chat_history`, both initialised to `None` in `main`
(lines 158–161). -/
structure SessionState where
  conversation : Option Chain
  chat_history : Option (List Message)

/-- The initial session state set up by `main` (lines 158–161): both
`conversation` and `chat_history` are `None`. -/
def initialState : SessionState := ⟨none, none⟩

/-- The turns held in the conversation memory of a state: the value of
`st.session_state.chat_history`, empty when it is `None`. -/
def historyOf (st : SessionState) : List Message :=
  st.chat_history.getD []

/-- Errors surfaced by the query path (spec §7 taxonomy, the kinds reachable
in `handle_userinput`). -/
inductive AskError where
  | notReady
  | generationServiceError
  deriving DecidableEq, Repr

/-- Rendering of the chat history (`rag.py` lines 70–74): message at even
index through the user template, at odd index through the bot template; `ut`
and `bt` are the `{{MSG}}`-substitution functions of the two templates (the
`htmlTemplates` module is not part of `src/`). -/
def renderHistory (ut bt : String → String) (ms : List Message) : List String :=
  ms.enum.map fun im =>
    if im.1 % 2 = 0 then ut im.2.content else bt im.2.content

/-- Observable outcome of one `handle_userinput` call: the updated session
state, the error raised (if any), the number of invocations of the
conversation chain (retrieval + generation), and the rendered messages. -/
structure HandleResult where
  state : SessionState
  error : Option AskError
  genCalls : Nat
  rendered : List String

/-- `handle_userinput` (`rag.py` lines 59–74): if no conversation chain
exists, report an error and return; otherwise invoke the chain with the
question, store the returned `chat_history` in the session state and render
it.  A chain failure propagates and skips the assignment. -/
def handle_userinput (ut bt : String → String) (st : SessionState)
    (user_input : String) : HandleResult :=
  match st.conversation with
  | none => ⟨st, some .notReady, 0, []⟩
  | some chain =>
    match chain user_input with
    | .error _ => ⟨st, some .generationServiceError, 1, []⟩
    | .ok resp =>
      ⟨⟨st.conversation, some resp.chat_history⟩, none, 1,
        renderHistory ut bt resp.chat_history⟩

/-- The question entry point in `main` (lines 165–167):
`if user_input: handle_userinput(user_input)` — only a string that is falsy
in Python, i.e. the empty string, skips the call. -/
def main_ask (ut bt : String → String) (st : SessionState)
    (user_input : String) : HandleResult :=
  if user_input = "" then ⟨st, none, 0, []⟩
  else handle_userinput ut bt st user_input

/-- `add_clear_button` when clicked (`rag.py` lines 109–114): sets both
`chat_history` and `conversation` to `None`. -/
def clearChat (_st : SessionState) : SessionState := ⟨none, none⟩

/-- The Process button in `main` (lines 172–181): builds a vector store and
stores a fresh conversation chain; `chat_history` is not touched. -/
def processDocs (st : SessionState) (chain : Chain) : SessionState :=
  ⟨some chain, st.chat_history⟩

/-- One user interaction with the app: pressing Process, submitting a
question, or pressing Clear Chat History. -/
inductive Event where
  | process (chain : Chain)
  | ask (ut bt : String → String) (q : String)
  | clear

/-- State transition of the app for one event, as `main`, `handle_userinput`
and `add_clear_button` implement it. -/
def step (st : SessionState) : Event → SessionState
  | .process chain => processDocs st chain
  | .ask ut bt q => (main_ask ut bt st q).state
  | .clear => clearChat st

/-- Session states reachable from the initial state of `main` through user
interactions. -/
inductive Reachable : SessionState → Prop
  | init : Reachable initialState
  | step {st : SessionState} (e : Event) : Reachable st → Reachable (step st e)

/-- An uploaded document as seen by `get_document_text`: a file name and the
uploaded payload (the raw file content, kept abstract). -/
structure Doc where
  name : String
  content : String

/-- `doc.name.split('.')[-1].lower()` (`rag.py` line 80): the lowercased last
dot-separated component of the file name. -/
def fileType (name : String) : String :=
  ((name.splitOn ".").getLastD "").toLower

/-- `get_document_text` (`rag.py` lines 76–87): concatenates, in input
order, text extracted per file type; `getPdf`, `readTxt`, `getDocx` stand
for the external extractors (`get_pdf_text`, utf-8 decoding of `doc.read()`,
`get_docx_text`).  A file type matching no branch contributes nothing. -/
def get_document_text (getPdf readTxt getDocx : Doc → String) (docs : List Doc) : String :=
  docs.foldl (fun text doc =>
    text ++ (if fileType doc.name = "pdf" then getPdf doc
      else if fileType doc.name = "txt" then readTxt doc
      else if fileType doc.name = "docx" ∨ fileType doc.name = "doc" then getDocx doc
      else "")) ""

/-- The transcript built by `add_download_button` (`rag.py` lines 98–100):
`chat_text += f"{'Bot' if message.type=='ai' else 'User'}: {message.content}\n\n"`
over the chat history. -/
def chat_text (ms : List Message) : String :=
  ms.foldl (fun acc m =>
    acc ++ ((if m.type = "ai" then "Bot" else "User") ++ ": " ++ m.content ++ "\n\n")) ""

/-- A sample conversation chain that answers every question: used to
instantiate theorems at concrete states. -/
def chainC : Chain := fun q => .ok ⟨[⟨"human", q⟩, ⟨"ai", "answer"⟩]⟩

/-- A sample conversation chain whose generation service always fails. -/
def chainF : Chain := fun _ => .error ()

/-! ## Helper lemmas on strings and folds -/

theorem data_append (a b : String) : (a ++ b).data = a.data ++ b.data := by
  cases a
  cases b
  rfl

theorem eq_of_data_eq (a b : String) (h : a.data = b.data) : a = b := by
  cases a
  cases b
  exact congrArg String.mk h

theorem string_append_assoc (a b c : String) : (a ++ b) ++ c = a ++ (b ++ c) := by
  apply eq_of_data_eq
  simp [data_append]

theorem string_empty_append (s : String) : "" ++ s = s := by
  apply eq_of_data_eq
  simp [data_append]

theorem string_append_empty (s : String) : s ++ "" = s := by
  apply eq_of_data_eq
  simp [data_append]

theorem foldl_append_init {α : Type} (f : α → String) (l : List α) :
    ∀ a b : String,
      l.foldl (fun acc x => acc ++ f x) (a ++ b) = a ++ l.foldl (fun acc x => acc ++ f x) b := by
  induction l with
  | nil => intro a b; rfl
  | cons x l ih =>
    intro a b
    simp only [List.foldl_cons]
    rw [string_append_assoc]
    exact ih a (b ++ f x)

theorem join_cons (s : String) (l : List String) :
    String.join (s :: l) = s ++ String.join l := by
  show l.foldl (fun r x => r ++ x) ("" ++ s) = s ++ l.foldl (fun r x => r ++ x) ""
  calc l.foldl (fun r x => r ++ x) ("" ++ s)
      = "" ++ l.foldl (fun r x => r ++ x) s := foldl_append_init (fun x => x) l "" s
    _ = l.foldl (fun r x => r ++ x) s := string_empty_append _
    _ = l.foldl (fun r x => r ++ x) (s ++ "") := by rw [string_append_empty]
    _ = s ++ l.foldl (fun r x => r ++ x) "" := foldl_append_init (fun x => x) l s ""

theorem foldl_append_eq_join {α : Type} (f : α → String) (l : List α) :
    l.foldl (fun acc x => acc ++ f x) "" = String.join (l.map f) := by
  induction l with
  | nil => rfl
  | cons x l ih =>
    simp only [List.foldl_cons, List.map_cons]
    rw [join_cons, ← ih]
    calc l.foldl (fun acc y => acc ++ f y) ("" ++ f x)
        = "" ++ l.foldl (fun acc y => acc ++ f y) (f x) := foldl_append_init f l "" (f x)
      _ = l.foldl (fun acc y => acc ++ f y) (f x) := string_empty_append _
      _ = l.foldl (fun acc y => acc ++ f y) (f x ++ "") := by rw [string_append_empty]
      _ = f x ++ l.foldl (fun acc y => acc ++ f y) "" := foldl_append_init f l (f x) ""

/-! ## Properties of the chunker merge loop -/

theorem takeLast_length_le (n : Nat) (l : List Char) : (takeLast n l).length ≤ n := by
  simp only [takeLast, List.length_drop]
  omega

theorem takeLast_length_eq (n : Nat) (l : List Char) (h : n ≤ l.length) :
    (takeLast n l).length = n := by
  simp only [takeLast, List.length_drop]
  omega

/-- Every chunk produced by the merge loop on unit-length units (the empty
separator splits into single characters) has length at most `size`. -/
theorem mergeAux_length_le (size ov : Nat) (hov : ov < size) :
    ∀ (us : List (List Char)) (buf : List Char) (fresh : Bool),
      (∀ u ∈ us, u.length = 1) →
      (fresh = true → buf.length ≤ ov) → (fresh = false → buf.length ≤ size) →
      ∀ c ∈ mergeAux size ov us buf fresh, c.length ≤ size := by
  intro us
  induction us with
  | nil =>
    intro buf fresh hu hf hnf c hc
    cases fresh with
    | true => simp [mergeAux] at hc
    | false =>
      simp only [mergeAux, List.mem_singleton] at hc
      subst hc
      exact hnf rfl
  | cons u us ih =>
    intro buf fresh hu hf hnf c hc
    have hu1 : u.length = 1 := hu u (List.mem_cons_self u us)
    have hu2 : ∀ v ∈ us, v.length = 1 := fun v hv => hu v (List.mem_cons_of_mem u hv)
    simp only [mergeAux] at hc
    split at hc
    · rename_i hcond
      refine ih (buf ++ u) false hu2 (fun h => by cases h) (fun _ => ?_) c hc
      simp only [List.length_append, hu1]
      simp only [Bool.or_eq_true, decide_eq_true_eq] at hcond
      cases hcond with
      | inl h => have := hf h; omega
      | inr h => omega
    · rename_i hcond
      simp only [Bool.or_eq_true, decide_eq_true_eq, not_or, not_le] at hcond
      rcases List.mem_cons.mp hc with hcb | hcr
      · subst hcb
        have hfl : fresh = false := by
          cases fresh
          · rfl
          · exact absurd rfl hcond.1.elim
        exact hnf hfl
      · refine ih (takeLast ov buf ++ u) false hu2 (fun h => by cases h) (fun _ => ?_) c hcr
        have := takeLast_length_le ov buf
        simp only [List.length_append, hu1]
        omega

/-- Every chunk except possibly the last produced by the merge loop on
unit-length units has length at least `size` (it was emitted because adding
one more character would have exceeded `size`). -/
theorem mergeAux_dropLast_length_ge (size ov : Nat) :
    ∀ (us : List (List Char)) (buf : List Char) (fresh : Bool),
      (∀ u ∈ us, u.length = 1) →
      ∀ c ∈ (mergeAux size ov us buf fresh).dropLast, size ≤ c.length := by
  intro us
  induction us with
  | nil =>
    intro buf fresh hu c hc
    cases fresh with
    | true => simp [mergeAux] at hc
    | false => simp [mergeAux] at hc
  | cons u us ih =>
    intro buf fresh hu c hc
    have hu1 : u.length = 1 := hu u (List.mem_cons_self u us)
    have hu2 : ∀ v ∈ us, v.length = 1 := fun v hv => hu v (List.mem_cons_of_mem u hv)
    simp only [mergeAux] at hc
    split at hc
    · exact ih (buf ++ u) false hu2 c hc
    · rename_i hcond
      simp only [Bool.or_eq_true, decide_eq_true_eq, not_or, not_le] at hcond
      cases hrec : mergeAux size ov us (takeLast ov buf ++ u) false with
      | nil => rw [hrec] at hc; simp at hc
      | cons r rs =>
        rw [hrec, List.dropLast_cons₂] at hc
        rcases List.mem_cons.mp hc with hcb | hcr
        · subst hcb
          have := hcond.2
          omega
        · have := ih (takeLast ov buf ++ u) false hu2 c
          rw [hrec] at this
          exact this hcr

/-- The first chunk the merge loop emits extends the buffer it started
from. -/
theorem mergeAux_head_extends (size ov : Nat) :
    ∀ (us : List (List Char)) (buf : List Char) (fresh : Bool) (c : List Char),
      (mergeAux size ov us buf fresh).head? = some c → buf <+: c := by
  intro us
  induction us with
  | nil =>
    intro buf fresh c hc
    cases fresh with
    | true => simp [mergeAux] at hc
    | false =>
      simp only [mergeAux, List.head?_cons, Option.some.injEq] at hc
      subst hc
      exact List.prefix_rfl
  | cons u us ih =>
    intro buf fresh c hc
    simp only [mergeAux] at hc
    split at hc
    · exact (List.prefix_append buf u).trans (ih (buf ++ u) false c hc)
    · simp only [List.head?_cons, Option.some.injEq] at hc
      subst hc
      exact List.prefix_rfl

/-- Consecutive chunks produced by the merge loop overlap: each chunk starts
with the trailing `ov` characters of its predecessor. -/
theorem mergeAux_chain_overlap (size ov : Nat) :
    ∀ (us : List (List Char)) (buf : List Char) (fresh : Bool),
      List.Chain' (fun a b => takeLast ov a <+: b) (mergeAux size ov us buf fresh) := by
  intro us
  induction us with
  | nil =>
    intro buf fresh
    cases fresh with
    | true => simp [mergeAux]
    | false => simp [mergeAux]
  | cons u us ih =>
    intro buf fresh
    simp only [mergeAux]
    split
    · exact ih (buf ++ u) false
    · rw [List.chain'_cons']
      refine ⟨?_, ih (takeLast ov buf ++ u) false⟩
      intro y hy
      have hext := mergeAux_head_extends size ov us (takeLast ov buf ++ u) false y hy
      exact (List.prefix_append (takeLast ov buf) u).trans hext

/-- The empty separator splits a text into its single characters. -/
theorem splitUnits_empty_sep (text : String) :
    ∀ u ∈ splitUnits text "", u.length = 1 := by
  intro u hu
  simp only [splitUnits, if_pos rfl] at hu
  obtain ⟨c, hc, hcu⟩ := List.mem_map.mp hu
  rw [← hcu]
  rfl

/-! ## State-machine invariant -/

/-- `handle_userinput` never changes which conversation chain is stored. -/
theorem handle_userinput_conversation_eq (ut bt : String → String) (st : SessionState)
    (q : String) : (handle_userinput ut bt st q).state.conversation = st.conversation := by
  unfold handle_userinput
  split
  · rfl
  · split
    · rfl
    · rfl

/-- In every reachable session state, an absent conversation chain implies an
absent chat history: `clear` resets both, `process` installs a chain, and
`handle_userinput` only writes `chat_history` when a chain is present. -/
theorem conversation_none_imp_history_none {st : SessionState} (h : Reachable st) :
    st.conversation = none → st.chat_history = none := by
  induction h with
  | init => intro _; rfl
  | step e h ih =>
    rename_i stx
    cases e with
    | process chain => intro hc; simp [step, processDocs] at hc
    | clear => intro _; rfl
    | ask ut bt q =>
      intro hc
      by_cases hq : q = ""
      · simp only [step, main_ask, if_pos hq] at hc ⊢
        exact ih hc
      · simp only [step, main_ask, if_neg hq] at hc ⊢
        have hcv : stx.conversation = none := by
          rw [← handle_userinput_conversation_eq ut bt stx q]
          exact hc
        simp only [handle_userinput, hcv]
        exact ih hcv

/-! ## Claims -/

/-- C1: invoking `handle_userinput` while the engine is uninitialized (no
conversation chain has been built, i.e. `st.session_state.conversation is
None` in any reachable state) fails with `NotReady`, makes no generation
call, renders nothing, leaves the state unchanged — and the conversation
memory is empty. -/
theorem ask_uninitialized_not_ready (ut bt : String → String) (st : SessionState)
    (q : String) (hr : Reachable st) (hc : st.conversation = none) :
    handle_userinput ut bt st q = ⟨st, some .notReady, 0, []⟩ ∧ historyOf st = [] := by
  constructor
  · simp only [handle_userinput, hc]
  · simp only [historyOf, conversation_none_imp_history_none hr hc, Option.getD_none]

/-- Witness for C1 at the initial state and the question `"hi"`. -/
theorem ask_uninitialized_not_ready_witness :
    handle_userinput id id initialState "hi" = ⟨initialState, some .notReady, 0, []⟩ ∧
      historyOf initialState = [] :=
  ask_uninitialized_not_ready id id initialState "hi" .init rfl

/-- C5 counterexample: a whitespace-only question is not rejected — on an
initialized engine it is passed to the conversation chain (one generation
call, no error) and the conversation memory changes. -/
theorem blank_question_is_processed :
    (main_ask id id ⟨some chainC, none⟩ " ").genCalls = 1 ∧
      (main_ask id id ⟨some chainC, none⟩ " ").error = none ∧
      historyOf (main_ask id id ⟨some chainC, none⟩ " ").state =
        [⟨"human", " "⟩, ⟨"ai", "answer"⟩] := by
  refine ⟨rfl, rfl, rfl⟩

/-- C5 amended: only the empty question is skipped by `main`'s
`if user_input:` guard — silently, with no error signalled, no generation
call and no state change; every non-empty question (whitespace-only ones
included) is handed to `handle_userinput` unchanged. -/
theorem main_ask_empty_skipped (ut bt : String → String) (st : SessionState) (q : String) :
    main_ask ut bt st "" = ⟨st, none, 0, []⟩ ∧
      (q ≠ "" → main_ask ut bt st q = handle_userinput ut bt st q) := by
  constructor
  · rfl
  · intro hq
    simp only [main_ask, if_neg hq]

/-- Witness for C5 amended at the blank question `" "`. -/
theorem main_ask_empty_skipped_witness :
    main_ask id id initialState "" = ⟨initialState, none, 0, []⟩ ∧
      main_ask id id initialState " " = handle_userinput id id initialState " " :=
  ⟨(main_ask_empty_skipped id id initialState " ").1,
    (main_ask_empty_skipped id id initialState " ").2 (by decide)⟩

/-- C6: if the conversation chain (the generation service) fails during a
question, `handle_userinput` propagates the failure as a generation-service
error and leaves the session state — in particular the conversation history,
length and content — exactly as it was; no partial turn is recorded. -/
theorem gen_failure_leaves_history (ut bt : String → String) (st : SessionState)
    (chain : Chain) (q : String) (e : Unit) (hc : st.conversation = some chain)
    (hf : chain q = .error e) :
    handle_userinput ut bt st q = ⟨st, some .generationServiceError, 1, []⟩ := by
  simp only [handle_userinput, hc, hf]

/-- Witness for C6 with an always-failing chain. -/
theorem gen_failure_leaves_history_witness :
    handle_userinput id id ⟨some chainF, some [⟨"human", "q0"⟩]⟩ "q1" =
      ⟨⟨some chainF, some [⟨"human", "q0"⟩]⟩, some .generationServiceError, 1, []⟩ :=
  gen_failure_leaves_history id id ⟨some chainF, some [⟨"human", "q0"⟩]⟩ chainF "q1" () rfl rfl

/-- C7 counterexample: `add_clear_button` does not leave the built retrieval
chain unchanged — it resets `st.session_state.conversation` to `None` as
well as the chat history. -/
theorem clear_discards_conversation :
    (clearChat ⟨some chainC, some [⟨"human", "q"⟩]⟩).conversation = none ∧
      (⟨some chainC, some [⟨"human", "q"⟩]⟩ : SessionState).conversation ≠ none := by
  constructor
  · rfl
  · intro h; cases h

/-- C7 amended: the clear operation resets the conversation memory to the
empty sequence AND discards the conversation chain (the handle wrapping the
vector store), returning the whole session to the initial, uninitialized
state. -/
theorem clear_resets_session (st : SessionState) :
    clearChat st = initialState ∧ historyOf (clearChat st) = [] := by
  exact ⟨rfl, rfl⟩

/-- C8: the downloadable transcript serializes the history in order, each
turn contributing exactly one record `"<Role>: <text>\n\n"`, the role label
chosen by the turn's role tag (`"ai"` ↦ `Bot`, otherwise `User`). -/
theorem chat_text_is_flat_transcript (ms : List Message) :
    chat_text ms = String.join (ms.map fun m =>
      (if m.type = "ai" then "Bot" else "User") ++ ": " ++ m.content ++ "\n\n") :=
  foldl_append_eq_join _ ms

/-- C9: ingestion returns the concatenation, in input order, of the text
extracted from each document according to the lowercased final
dot-separated component of its file name (`pdf`, `txt`, `docx`, `doc`);
any other file type contributes the empty string, without error. -/
theorem get_document_text_concat (getPdf readTxt getDocx : Doc → String) (docs : List Doc) :
    get_document_text getPdf readTxt getDocx docs = String.join (docs.map fun d =>
      if fileType d.name = "pdf" then getPdf d
      else if fileType d.name = "txt" then readTxt d
      else if fileType d.name = "docx" ∨ fileType d.name = "doc" then getDocx d
      else "") :=
  foldl_append_eq_join _ docs

/-- C10: the rendering of the chat history dispatches on position alone: the
message at index `i` goes through the user template when `i` is even and
through the bot template when `i` is odd, regardless of its role tag — only
its `content` is consulted. -/
theorem render_by_positional_parity (ut bt : String → String) (ms : List Message)
    (i : Nat) (h : i < ms.length) :
    (renderHistory ut bt ms)[i]? =
      some (if i % 2 = 0 then ut (ms.get ⟨i, h⟩).content else bt (ms.get ⟨i, h⟩).content) := by
  simp only [renderHistory, List.getElem?_map, List.getElem?_enum,
    List.getElem?_eq_getElem h, Option.map_some]
  rfl

/-- Witness for C10: an `"ai"`-tagged message at index 0 is rendered with the
user template, a `"human"`-tagged one at index 1 with the bot template. -/
theorem render_by_positional_parity_witness :
    (renderHistory (fun s => "U:" ++ s) (fun s => "B:" ++ s)
        [⟨"ai", "a"⟩, ⟨"human", "q"⟩])[1]? =
      some (if 1 % 2 = 0 then
          (fun s => "U:" ++ s) (([⟨"ai", "a"⟩, ⟨"human", "q"⟩] : List Message).get ⟨1, by decide⟩).content
        else
          (fun s => "B:" ++ s) (([⟨"ai", "a"⟩, ⟨"human", "q"⟩] : List Message).get ⟨1, by decide⟩).content) :=
  render_by_positional_parity (fun s => "U:" ++ s) (fun s => "B:" ++ s)
    [⟨"ai", "a"⟩, ⟨"human", "q"⟩] 1 (by decide)

/-- C2 counterexample: chunking `"AAAAABBBBB"` with the empty separator,
size 5 and overlap 2 does not yield `["AAAAA", "AABBBBB"]` (it yields
`["AAAAA", "AABBB", "BBBB"]`: the greedy merge emits a chunk as soon as one
more character would exceed the size). -/
theorem chunk_scenario_b_differs :
    chunk "AAAAABBBBB" "" 5 2 ≠ .ok ["AAAAA", "AABBBBB"] := by
  intro h
  have h2 : (Except.ok ["AAAAA", "AABBB", "BBBB"] : Except ChunkError (List String)) =
      .ok ["AAAAA", "AABBBBB"] :=
    (rfl : chunk "AAAAABBBBB" "" 5 2 = .ok ["AAAAA", "AABBB", "BBBB"]).symm.trans h
  injection h2 with h3
  exact absurd h3 (by decide)

/-- C2 corrected: for every text and valid configuration, chunking with the
empty separator (character units) succeeds, every chunk — the last included —
has length at most `size`, and each pair of consecutive chunks overlaps in
exactly the configured `overlap` characters (the successor starts with the
trailing `overlap` characters of its predecessor); chunking `"AAAAABBBBB"`
with size 5 and overlap 2 yields `["AAAAA", "AABBB", "BBBB"]`. -/
theorem chunk_bounds_and_overlap (text : String) (size overlap : Int)
    (hs : 0 < size) (ho : 0 ≤ overlap) (hlt : overlap < size) :
    ∃ cs, chunk text "" size overlap = .ok cs ∧
      (∀ c ∈ cs, c.length ≤ size.toNat) ∧
      (∀ i : Nat, ∀ hi : i + 1 < cs.length,
        (takeLast overlap.toNat (cs.get ⟨i, by omega⟩).data).length = overlap.toNat ∧
        takeLast overlap.toNat (cs.get ⟨i, by omega⟩).data <+: (cs.get ⟨i + 1, hi⟩).data) ∧
      chunk "AAAAABBBBB" "" 5 2 = .ok ["AAAAA", "AABBB", "BBBB"] := by
  have hovn : overlap.toNat < size.toNat := by omega
  have hvalid : ¬(size ≤ 0 ∨ overlap < 0 ∨ size ≤ overlap) := by omega
  by_cases ht : text = ""
  · refine ⟨[], ?_, ?_, ?_, rfl⟩
    · simp only [chunk, if_neg hvalid, if_pos ht]
    · intro c hc
      cases hc
    · intro i hi
      simp at hi
  · set r := mergeAux size.toNat overlap.toNat (splitUnits text "") [] true with hr
    have hget : ∀ j (hj : j < r.length),
        ((r.map (fun l => String.mk l)).get ⟨j, by rw [List.length_map]; exact hj⟩).data =
          r.get ⟨j, hj⟩ := by
      intro j hj
      simp [List.get_eq_getElem, List.getElem_map]
    refine ⟨r.map (fun l => String.mk l), ?_, ?_, ?_, rfl⟩
    · simp only [chunk, if_neg hvalid, if_neg ht]
    · intro c hc
      obtain ⟨l, hl, hlc⟩ := List.mem_map.mp hc
      rw [← hlc]
      exact mergeAux_length_le size.toNat overlap.toNat hovn (splitUnits text "") [] true
        (splitUnits_empty_sep text) (fun _ => by simp) (fun h => by cases h) l hl
    · intro i hi
      have hri1 : i + 1 < r.length := by
        rw [List.length_map] at hi
        exact hi
      have hri : i < r.length := by omega
      constructor
      · rw [hget i hri]
        apply takeLast_length_eq
        have hmem : r.get ⟨i, hri⟩ ∈ r.dropLast := by
          rw [List.get_eq_getElem]
          have h1 : i < r.dropLast.length := by rw [List.length_dropLast]; omega
          have h2 := List.getElem_mem h1
          rw [List.getElem_dropLast] at h2
          exact h2
        have := mergeAux_dropLast_length_ge size.toNat overlap.toNat (splitUnits text "")
          [] true (splitUnits_empty_sep text) _ hmem
        omega
      · rw [hget i hri, hget (i + 1) hri1]
        have hch := mergeAux_chain_overlap size.toNat overlap.toNat (splitUnits text "") [] true
        rw [← hr] at hch
        exact List.chain'_iff_get.mp hch i (by omega)

/-- Witness for C2 corrected at `"AAAAABBBBB"`, size 5, overlap 2. -/
theorem chunk_bounds_and_overlap_witness :
    ((0 : Int) < 5 ∧ (0 : Int) ≤ 2 ∧ (2 : Int) < 5) ∧
      ∃ cs, chunk "AAAAABBBBB" "" 5 2 = .ok cs ∧
        (∀ c ∈ cs, c.length ≤ (5 : Int).toNat) ∧
        (∀ i : Nat, ∀ hi : i + 1 < cs.length,
          (takeLast (2 : Int).toNat (cs.get ⟨i, by omega⟩).data).length = (2 : Int).toNat ∧
          takeLast (2 : Int).toNat (cs.get ⟨i, by omega⟩).data <+: (cs.get ⟨i + 1, hi⟩).data) ∧
        chunk "AAAAABBBBB" "" 5 2 = .ok ["AAAAA", "AABBB", "BBBB"] :=
  ⟨⟨by decide, by decide, by decide⟩,
    chunk_bounds_and_overlap "AAAAABBBBB" 5 2 (by decide) (by decide) (by decide)⟩

/-- C3: chunking is deterministic — two calls with identical text,
separator, size and overlap return the identical chunk sequence (the
spec-modelled chunker is a pure function of its four arguments). -/
theorem chunk_deterministic (t₁ t₂ s₁ s₂ : String) (sz₁ sz₂ ov₁ ov₂ : Int)
    (ht : t₁ = t₂) (hs : s₁ = s₂) (hsz : sz₁ = sz₂) (hov : ov₁ = ov₂) :
    chunk t₁ s₁ sz₁ ov₁ = chunk t₂ s₂ sz₂ ov₂ := by
  rw [ht, hs, hsz, hov]

/-- Witness for C3 at a concrete repeated call. -/
theorem chunk_deterministic_witness :
    chunk "AAAAABBBBB" "" 5 2 = chunk "AAAAABBBBB" "" 5 2 :=
  chunk_deterministic "AAAAABBBBB" "AAAAABBBBB" "" "" 5 5 2 2 rfl rfl rfl rfl

/-- C4: the chunker fails with `InvalidConfiguration` exactly when the
configuration violates `size > 0` or `0 ≤ overlap < size`; a valid
configuration never produces that error. -/
theorem chunk_config_validation (text sep : String) (size overlap : Int) :
    chunk text sep size overlap = .error .invalidConfiguration ↔
      ¬(0 < size ∧ 0 ≤ overlap ∧ overlap < size) := by
  by_cases h : size ≤ 0 ∨ overlap < 0 ∨ size ≤ overlap
  · simp only [chunk, if_pos h]
    constructor
    · intro _; omega
    · intro _; trivial
  · simp only [chunk, if_neg h]
    constructor
    · intro hcontra
      by_cases ht : text = ""
      · rw [if_pos ht] at hcontra; cases hcontra
      · rw [if_neg ht] at hcontra; cases hcontra
    · intro hcontra; exact absurd hcontra (by omega)

end RagSpec
